import Mathlib

/-!
Shallow embedding of the face-registration / face-recognition service
(`khoma.py`): the persisted store, the match engine inside
`recognize_face`, and the request handlers `register_face`,
`delete_person`, `clear_database`, plus the data-URL stripping step of
`decode_image`.  Face detection, embedding extraction and the Euclidean
distance computation are delegated by the code to the external
`face_recognition` library; following that boundary, the embedding takes
the per-face distance list (`face_recognition.face_distance`) as input,
and models `face_recognition.compare_faces` by its documented semantics
`distance <= tolerance`.
-/

set_option autoImplicit false

namespace Khoma

/-- A face encoding: fixed-length numeric vector (the content is opaque
to every code path modelled here). -/
abbrev Enc := List ℚ

/-- The metadata dict built by `register_face` (lines 101-106). -/
structure Meta where
  name : String
  age : Int
  gender : String
  registered_at : String
deriving DecidableEq, Repr, Inhabited

/-- The persisted store: `{'encodings': [...], 'metadata': [...]}`. -/
structure FaceData where
  encodings : List Enc
  metadata : List Meta
deriving DecidableEq, Repr

/-- A JSON scalar appearing in a response body dict. -/
inductive JVal where
  | s (v : String)
  | b (v : Bool)
  | i (v : Int)
  | q (v : ℚ)
  | nat (v : Nat)
  | m (v : Meta)
deriving DecidableEq, Repr

/-- A JSON object (response body), as an association list in insertion
order, mirroring the Python dict literals. -/
abbrev Body := List (String × JVal)

/-- `load_data` (lines 18-23): read the pickled state if the storage file
exists, else the empty store.  The persisted state is modelled as
`Option FaceData` (`none` = no storage file). -/
def load_data (persisted : Option FaceData) : FaceData :=
  persisted.getD ⟨[], []⟩

/-- `save_data` (lines 25-28): overwrite the persisted state. -/
def save_data (d : FaceData) : Option FaceData :=
  some d

/-- Python `l.split(',')` on a character list: split on every comma,
keeping empty segments, never returning an empty list. -/
def pySplitComma : List Char → List (List Char)
  | [] => [[]]
  | c :: cs =>
    if c = ',' then [] :: pySplitComma cs
    else
      match pySplitComma cs with
      | [] => [[c]]
      | t :: ts => (c :: t) :: ts

/-- The base64-payload selection step of `decode_image` (lines 34-37):
`if ',' in image_data: image_data = image_data.split(',')[1]`.  Returns
the character list handed to `base64.b64decode`. -/
def stripDataHeader (s : List Char) : List Char :=
  if ',' ∈ s then (pySplitComma s).getD 1 [] else s

/-- Python `int(s)` on a string, as used on the `age` field (line 103):
optional surrounding spaces, optional sign, then one or more digits;
anything else raises `ValueError`, modelled as `none`. -/
def pyInt (s : String) : Option Int :=
  let t := ((s.toList.dropWhile (· = ' ')).reverse.dropWhile (· = ' ')).reverse
  let digitsVal := fun (ds : List Char) =>
    if ds ≠ [] ∧ ds.all Char.isDigit then
      some (ds.foldl (fun acc c => 10 * acc + (c.toNat - 48)) 0)
    else none
  match t with
  | '+' :: ds => (digitsVal ds).map Int.ofNat
  | '-' :: ds => (digitsVal ds).map (fun n => -(Int.ofNat n))
  | ds => (digitsVal ds).map Int.ofNat

/-- `np.argmin` on a nonempty list: index of the minimum value, first
occurrence on ties (on `[]`, numpy raises; the value here is irrelevant
since every call site guards nonemptiness). -/
def argminIdx : List ℚ → Nat
  | [] => 0
  | d :: ds =>
    match ds.get? (argminIdx ds) with
    | none => 0
    | some m => if d ≤ m then 0 else argminIdx ds + 1

/-- The per-face success dict of `recognize_face` (lines 171-178). -/
def recognizedBody (md : Meta) (conf : ℚ) (pid : Nat) : Body :=
  [("recognized", .b true), ("name", .s md.name), ("age", .i md.age),
   ("gender", .s md.gender), ("confidence", .q conf), ("person_id", .nat pid)]

/-- The per-face failure dict of `recognize_face` (lines 180, 182). -/
def notRecognizedBody : Body :=
  [("recognized", .b false), ("message", .s "Face not recognized")]

/-- One iteration of the matching loop of `recognize_face`
(lines 158-182) for a single detected face.  `distances` is the external
`face_recognition.face_distance(data['encodings'], face_encoding)`;
`compare_faces` with the same inputs is `[d <= tolerance for d in
distances]`.  `none` models the `IndexError` (propagating to the
except-500 branch) when `data['metadata']` lacks the argmin index. -/
def recognizeOne (distances : List ℚ) (metadata : List Meta)
    (tolerance : ℚ) : Option Body :=
  let matchFlags := distances.map (fun d => decide (d ≤ tolerance))
  if true ∈ matchFlags then
    let best := argminIdx distances
    if matchFlags.getD best false then
      (metadata.get? best).map (fun md =>
        recognizedBody md (1 - distances.getD best 0) best)
    else some notRecognizedBody
  else some notRecognizedBody

/-- `register_face` (lines 56-122).  `hasImage` is whether the request
carries an `image` field; `name`, `age`, `gender` are `none` when the
field is absent or falsy (the `not all([...])` check); `faces` is the
output of the external `face_recognition.face_encodings` on the decoded
image; `now` is the timestamp string.  Returns `((status, body),
resulting persisted store)`; the 500 branch models the `ValueError`
raised by `int(age)` and caught by the handler's `except`. -/
def register_face (hasImage : Bool) (name age gender : Option String)
    (faces : List Enc) (now : String) (store : FaceData) :
    (Nat × Body) × FaceData :=
  if !hasImage then
    ((400, [("error", .s "No image provided")]), store)
  else if name = none ∨ age = none ∨ gender = none then
    ((400, [("error", .s "Name, age, and gender are required")]), store)
  else if faces.length = 0 then
    ((400, [("error", .s "No face detected in image")]), store)
  else if faces.length > 1 then
    ((400, [("error", .s "Multiple faces detected. Please provide image with single face")]), store)
  else
    match pyInt (age.getD "") with
    | none =>
      ((500, [("error", .s "invalid literal for int()")]), store)
    | some a =>
      let md : Meta := ⟨name.getD "", a, gender.getD "", now⟩
      let d : FaceData :=
        ⟨store.encodings ++ [faces.headI], store.metadata ++ [md]⟩
      ((200, [("success", .b true),
              ("message", .s ("Successfully registered " ++ name.getD "")),
              ("person_id", .nat (d.encodings.length - 1)),
              ("metadata", .m md)]), d)

/-- `delete_person` (lines 210-235).  `person_id` is an `Int` so the
out-of-range guard `person_id < 0 or person_id >= len(...)` is modelled
as written.  `deleted` is the metadata carried in the success body; the
500 branch models the `IndexError` when `data['metadata']` is shorter
than `data['encodings']`. -/
structure DeleteResp where
  status : Nat
  deleted : Option Meta
  store : FaceData
deriving DecidableEq, Repr

def delete_person (person_id : Int) (store : FaceData) : DeleteResp :=
  if person_id < 0 ∨ (store.encodings.length : Int) ≤ person_id then
    ⟨404, none, store⟩
  else
    match store.metadata.get? person_id.toNat with
    | none => ⟨500, none, store⟩
    | some md =>
      ⟨200, some md,
       ⟨store.encodings.eraseIdx person_id.toNat,
        store.metadata.eraseIdx person_id.toNat⟩⟩

/-- `clear_database` (lines 237-245): the store written by the handler. -/
def clear_database : FaceData :=
  ⟨[], []⟩

/-- The store invariant of §3: the two parallel sequences stay the same
length. -/
def storeInv (d : FaceData) : Prop :=
  d.encodings.length = d.metadata.length

instance (d : FaceData) : Decidable (storeInv d) := by
  unfold storeInv; infer_instance

/-! ### Lemmas about `argminIdx` -/

theorem argmin_lt_of_get?_some {ds : List ℚ} {m : ℚ}
    (h : ds.get? (argminIdx ds) = some m) : argminIdx ds < ds.length := by
  by_contra hge
  rw [List.get?_eq_none.mpr (Nat.le_of_not_lt hge)] at h
  exact Option.noConfusion h

theorem argminIdx_lt_length (l : List ℚ) (hl : l ≠ []) :
    argminIdx l < l.length := by
  cases l with
  | nil => exact absurd rfl hl
  | cons d ds =>
    cases hds : ds.get? (argminIdx ds) with
    | none =>
      simp only [argminIdx, hds, List.length_cons]
      omega
    | some m =>
      have hlt := argmin_lt_of_get?_some hds
      simp only [argminIdx, hds, List.length_cons]
      by_cases hd : d ≤ m
      · simp only [if_pos hd]
        omega
      · simp only [if_neg hd]
        omega

theorem getD_of_get?_some {α : Type} {l : List α} {n : Nat} {a d : α}
    (h : l.get? n = some a) : l.getD n d = a := by
  rw [List.getD_eq_get?, h]
  rfl

theorem get?_eq_some_getD {α : Type} [Inhabited α] (l : List α) (n : Nat)
    (h : n < l.length) : l.get? n = some (l.getD n default) := by
  rw [List.getD_eq_get?]
  cases hc : l.get? n with
  | none =>
    rw [List.get?_eq_none] at hc
    omega
  | some a => rfl

theorem argminIdx_le (l : List ℚ) :
    ∀ j, j < l.length → l.getD (argminIdx l) 0 ≤ l.getD j 0 := by
  induction l with
  | nil => intro j hj; simp at hj
  | cons d ds ih =>
    intro j hj
    cases hds : ds.get? (argminIdx ds) with
    | none =>
      have hnil : ds = [] := by
        cases ds with
        | nil => rfl
        | cons e es =>
          have hlt := argminIdx_lt_length (e :: es) (by simp)
          rw [List.get?_eq_none] at hds
          omega
      subst hnil
      have hj0 : j = 0 := by
        simp only [List.length_cons, List.length_nil] at hj
        omega
      subst hj0
      simp [argminIdx]
    | some m =>
      have hlt := argmin_lt_of_get?_some hds
      have hm : m = ds.getD (argminIdx ds) 0 := (getD_of_get?_some hds).symm
      simp only [argminIdx, hds]
      by_cases hd : d ≤ m
      · simp only [if_pos hd, List.getD_cons_zero]
        cases j with
        | zero => simp
        | succ k =>
          have hk : k < ds.length := by
            simp only [List.length_cons] at hj
            omega
          simp only [List.getD_cons_succ]
          calc d ≤ m := hd
            _ = ds.getD (argminIdx ds) 0 := hm
            _ ≤ ds.getD k 0 := ih k hk
      · simp only [if_neg hd, List.getD_cons_succ]
        cases j with
        | zero =>
          simp only [List.getD_cons_zero]
          rw [← hm]
          exact le_of_lt (lt_of_not_le hd)
        | succ k =>
          have hk : k < ds.length := by
            simp only [List.length_cons] at hj
            omega
          simpa only [List.getD_cons_succ] using ih k hk

theorem argminIdx_first (l : List ℚ) :
    ∀ j, j < argminIdx l → l.getD (argminIdx l) 0 < l.getD j 0 := by
  induction l with
  | nil => intro j hj; simp [argminIdx] at hj
  | cons d ds ih =>
    intro j hj
    cases hds : ds.get? (argminIdx ds) with
    | none =>
      simp only [argminIdx, hds] at hj
      omega
    | some m =>
      have hm : m = ds.getD (argminIdx ds) 0 := (getD_of_get?_some hds).symm
      by_cases hd : d ≤ m
      · simp only [argminIdx, hds, if_pos hd] at hj
        omega
      · simp only [argminIdx, hds, if_neg hd] at hj ⊢
        cases j with
        | zero =>
          simp only [List.getD_cons_succ, List.getD_cons_zero]
          rw [← hm]
          exact lt_of_not_le hd
        | succ k =>
          simp only [List.getD_cons_succ]
          exact ih k (Nat.lt_of_succ_lt_succ hj)

/-! ### Lemmas about the `compare_faces` flag list and `recognizeOne` -/

theorem getD_map_decide (t : ℚ) (l : List ℚ) (n : Nat) (hn : n < l.length) :
    (l.map (fun d => decide (d ≤ t))).getD n false = decide (l.getD n 0 ≤ t) := by
  rw [List.getD_eq_get?, List.get?_map, List.getD_eq_get?]
  cases h : l.get? n with
  | none =>
    rw [List.get?_eq_none] at h
    omega
  | some a => rfl

theorem true_mem_flags {t : ℚ} {l : List ℚ} {i : Nat}
    (hi : i < l.length) (hle : l.getD i 0 ≤ t) :
    true ∈ l.map (fun d => decide (d ≤ t)) := by
  rw [List.mem_map]
  refine ⟨l.getD i 0, ?_, by simpa using hle⟩
  rw [List.getD_eq_getElem l 0 hi]
  exact List.getElem_mem hi

theorem exists_le_of_true_mem {t : ℚ} {l : List ℚ}
    (h : true ∈ l.map (fun d => decide (d ≤ t))) :
    ∃ i, i < l.length ∧ l.getD i 0 ≤ t := by
  rw [List.mem_map] at h
  obtain ⟨a, ha, hdec⟩ := h
  obtain ⟨i, hi, hgl⟩ := List.mem_iff_getElem.mp ha
  refine ⟨i, hi, ?_⟩
  rw [List.getD_eq_getElem l 0 hi, hgl]
  simpa using hdec

theorem recognizeOne_pos (ds : List ℚ) (ms : List Meta) (t : ℚ)
    (hlen : ds.length = ms.length) (i : Nat) (hi : i < ds.length)
    (hle : ds.getD i 0 ≤ t) :
    recognizeOne ds ms t =
      some (recognizedBody (ms.getD (argminIdx ds) default)
        (1 - ds.getD (argminIdx ds) 0) (argminIdx ds)) := by
  have hne : ds ≠ [] := by
    intro h
    subst h
    simp at hi
  have hbest : argminIdx ds < ds.length := argminIdx_lt_length ds hne
  have hbestle : ds.getD (argminIdx ds) 0 ≤ t :=
    le_trans (argminIdx_le ds i hi) hle
  have hms : ms.get? (argminIdx ds) = some (ms.getD (argminIdx ds) default) :=
    get?_eq_some_getD ms (argminIdx ds) (by omega)
  simp only [recognizeOne]
  rw [if_pos (true_mem_flags hi hle)]
  rw [getD_map_decide t ds (argminIdx ds) hbest]
  rw [if_pos (by simpa using hbestle)]
  rw [hms]
  rfl

theorem recognizeOne_neg (ds : List ℚ) (ms : List Meta) (t : ℚ)
    (h : ∀ i, i < ds.length → ¬ ds.getD i 0 ≤ t) :
    recognizeOne ds ms t = some notRecognizedBody := by
  simp only [recognizeOne]
  rw [if_neg]
  intro htrue
  obtain ⟨i, hi, hle⟩ := exists_le_of_true_mem htrue
  exact h i hi hle

theorem key_ne {k₁ k₂ : String} {v₁ v₂ : JVal} (hk : k₁ ≠ k₂) :
    (k₁, v₁) ≠ (k₂, v₂) :=
  fun h => hk (congrArg Prod.fst h)

theorem lt_length_of_get?_some {α : Type} {l : List α} {n : Nat} {a : α}
    (h : l.get? n = some a) : n < l.length := by
  by_contra hge
  rw [List.get?_eq_none.mpr (Nat.le_of_not_lt hge)] at h
  exact Option.noConfusion h

theorem get?_eraseIdx_of_lt {α : Type} (l : List α) (i j : Nat) (hj : j < i) :
    (l.eraseIdx i).get? j = l.get? j := by
  rw [List.eraseIdx_eq_take_drop_succ]
  by_cases hcase : j < (List.take i l).length
  · rw [List.get?_append hcase, List.get?_take hj]
  · have hlen : l.length ≤ j := by
      rw [List.length_take] at hcase
      omega
    have h1 : (List.drop (i + 1) l).length ≤ j - (List.take i l).length := by
      rw [List.length_drop, List.length_take]
      omega
    rw [List.get?_append_right (Nat.le_of_not_lt hcase),
      List.get?_eq_none.mpr h1, List.get?_eq_none.mpr hlen]

theorem get?_eraseIdx_of_gt {α : Type} (l : List α) (i j : Nat)
    (hij : i < j) (hj : j < l.length) :
    (l.eraseIdx i).get? (j - 1) = l.get? j := by
  rw [List.eraseIdx_eq_take_drop_succ]
  have htake : (List.take i l).length = i := by
    rw [List.length_take]
    omega
  rw [List.get?_append_right (by omega), List.get?_drop]
  congr 1
  omega

/-! ### Lemmas about the store handlers -/

theorem register_preserves_inv (hasImage : Bool)
    (name age gender : Option String) (faces : List Enc) (now : String)
    (d : FaceData) (hd : storeInv d) :
    storeInv (register_face hasImage name age gender faces now d).2 := by
  simp only [register_face]
  split
  · exact hd
  split
  · exact hd
  split
  · exact hd
  split
  · exact hd
  split
  · exact hd
  · simp only [storeInv, List.length_append, List.length_cons,
      List.length_nil] at hd ⊢
    omega

theorem delete_preserves_inv (pid : Int) (d : FaceData) (hd : storeInv d) :
    storeInv (delete_person pid d).store := by
  simp only [delete_person]
  split
  · exact hd
  split
  · exact hd
  · rename_i md hmd
    have hlt_md : pid.toNat < d.metadata.length := lt_length_of_get?_some hmd
    have hd2 : d.encodings.length = d.metadata.length := hd
    simp only [storeInv, List.length_eraseIdx, if_pos hlt_md,
      if_pos (show pid.toNat < d.encodings.length by omega)]
    omega

theorem pySplitComma_ne_nil (l : List Char) : pySplitComma l ≠ [] := by
  cases l with
  | nil => simp [pySplitComma]
  | cons c cs =>
    simp only [pySplitComma]
    by_cases hc : c = ','
    · simp [hc]
    · simp only [if_neg hc]
      cases hsp : pySplitComma cs with
      | nil => simp
      | cons t ts => simp

theorem pySplitComma_head (l : List Char) :
    (pySplitComma l).getD 0 [] = l.takeWhile (fun c => c != ',') := by
  induction l with
  | nil => rfl
  | cons c cs ih =>
    by_cases hc : c = ','
    · subst hc
      simp [pySplitComma, List.takeWhile_cons]
    · cases hsp : pySplitComma cs with
      | nil => exact absurd hsp (pySplitComma_ne_nil cs)
      | cons t ts =>
        rw [hsp] at ih
        simp only [pySplitComma, if_neg hc, hsp, List.getD_cons_zero,
          List.takeWhile_cons] at ih ⊢
        rw [if_pos (by simpa using hc)]
        rw [← ih]

/-! ### Claim theorems over the match engine -/

/-- C1: matching a query at distance `d` from the single stored encoding,
with tolerance `t`, reports a match iff `d ≤ t`, and on a match the
reported confidence is exactly `1 - d`. -/
theorem recognize_singleton_match_iff (d t : ℚ) (m : Meta) :
    ((("recognized", JVal.b true) ∈ (recognizeOne [d] [m] t).getD []) ↔ d ≤ t)
    ∧ (d ≤ t →
        ("confidence", JVal.q (1 - d)) ∈ (recognizeOne [d] [m] t).getD []) := by
  by_cases hd : d ≤ t
  · have hpos := recognizeOne_pos [d] [m] t rfl 0 (by simp) (by simpa using hd)
    rw [hpos]
    have ha : argminIdx [d] = 0 := rfl
    simp only [ha, List.getD_cons_zero, Option.getD_some]
    exact ⟨⟨fun _ => hd, fun _ => by simp [recognizedBody]⟩,
      fun _ => by simp [recognizedBody]⟩
  · have hneg := recognizeOne_neg [d] [m] t (by
      intro i hi
      have hi0 : i = 0 := by simpa using hi
      subst hi0
      simpa using hd)
    rw [hneg]
    simp only [Option.getD_some]
    exact ⟨⟨fun hmem => absurd hmem (by decide), fun hle => absurd hle hd⟩,
      fun hle => absurd hle hd⟩

/-- Witness for C1 at `d = 1/2`, `t = 1`: the match is reported and the
confidence is `1 - 1/2`. -/
theorem recognize_singleton_match_iff_witness :
    ("recognized", JVal.b true) ∈
      (recognizeOne [(1 : ℚ)/2] [⟨"Alice", 30, "F", "2024"⟩] 1).getD []
    ∧ ("confidence", JVal.q (1/2)) ∈
      (recognizeOne [(1 : ℚ)/2] [⟨"Alice", 30, "F", "2024"⟩] 1).getD [] := by
  have h := recognize_singleton_match_iff ((1 : ℚ)/2) 1 ⟨"Alice", 30, "F", "2024"⟩
  refine ⟨h.1.mpr (by norm_num), ?_⟩
  have hc := h.2 (by norm_num)
  have he : (1 : ℚ) - 1/2 = 1/2 := by norm_num
  rw [he] at hc
  exact hc

/-- C2: whenever some stored encoding is within tolerance, the engine
reports the record at `argminIdx`, which attains the globally minimum
distance, and ties at the minimum go to the lowest index. -/
theorem recognize_reports_first_min (ds : List ℚ) (ms : List Meta) (t : ℚ)
    (hlen : ds.length = ms.length)
    (hex : ∃ i, i < ds.length ∧ ds.getD i 0 ≤ t) :
    recognizeOne ds ms t =
      some (recognizedBody (ms.getD (argminIdx ds) default)
        (1 - ds.getD (argminIdx ds) 0) (argminIdx ds))
    ∧ argminIdx ds < ds.length
    ∧ (∀ j, j < ds.length → ds.getD (argminIdx ds) 0 ≤ ds.getD j 0)
    ∧ (∀ j, ds.getD j 0 = ds.getD (argminIdx ds) 0 → argminIdx ds ≤ j) := by
  obtain ⟨i, hi, hle⟩ := hex
  have hne : ds ≠ [] := by
    intro h
    subst h
    simp at hi
  refine ⟨recognizeOne_pos ds ms t hlen i hi hle,
    argminIdx_lt_length ds hne, argminIdx_le ds, fun j hj => ?_⟩
  by_contra hlt
  have hfirst := argminIdx_first ds j (by omega)
  rw [hj] at hfirst
  exact lt_irrefl _ hfirst

/-- Witness for C2 on the distance list `[3, 1, 2, 1]` with tolerance 2:
the reported index is 1, the first of the two minima. -/
theorem recognize_reports_first_min_witness :
    recognizeOne [3, 1, 2, 1]
      [⟨"A", 1, "F", "t"⟩, ⟨"B", 2, "M", "u"⟩, ⟨"C", 3, "X", "v"⟩,
       ⟨"D", 4, "F", "w"⟩] 2 =
    some (recognizedBody ⟨"B", 2, "M", "u"⟩ 0 1) := by
  have h := recognize_reports_first_min [3, 1, 2, 1]
    [⟨"A", 1, "F", "t"⟩, ⟨"B", 2, "M", "u"⟩, ⟨"C", 3, "X", "v"⟩,
     ⟨"D", 4, "F", "w"⟩] 2 rfl ⟨1, by norm_num, by decide⟩
  have h1 := h.1
  rw [show argminIdx [3, 1, 2, 1] = 1 from by decide] at h1
  simp only [List.getD_cons_succ, List.getD_cons_zero] at h1
  have he : (1 : ℚ) - 1 = 0 := by norm_num
  rw [he] at h1
  exact h1

/-- C10: if some stored encoding is within tolerance, the argmin-distance
encoding is within tolerance too, so the inner not-recognized branch of
`recognize_face` is never the produced result. -/
theorem argmin_within_tolerance (ds : List ℚ) (ms : List Meta) (t : ℚ)
    (hlen : ds.length = ms.length)
    (hex : ∃ i, i < ds.length ∧ ds.getD i 0 ≤ t) :
    ds.getD (argminIdx ds) 0 ≤ t
    ∧ recognizeOne ds ms t ≠ some notRecognizedBody
    ∧ recognizeOne ds ms t =
        some (recognizedBody (ms.getD (argminIdx ds) default)
          (1 - ds.getD (argminIdx ds) 0) (argminIdx ds)) := by
  obtain ⟨i, hi, hle⟩ := hex
  have hpos := recognizeOne_pos ds ms t hlen i hi hle
  refine ⟨le_trans (argminIdx_le ds i hi) hle, ?_, hpos⟩
  rw [hpos]
  intro hcontra
  have hbody := Option.some.inj hcontra
  simp [recognizedBody, notRecognizedBody] at hbody

/-- Witness for C10 on the distance list `[2, 1/2]` with tolerance 1: the
second entry is within tolerance, so the argmin entry is within tolerance
and the outcome is not the not-recognized body. -/
theorem argmin_within_tolerance_witness :
    [(2 : ℚ), 0].getD (argminIdx [(2 : ℚ), 0]) 0 ≤ 1
    ∧ recognizeOne [(2 : ℚ), 0] [⟨"A", 1, "F", "t"⟩, ⟨"B", 2, "M", "u"⟩] 1 ≠
        some notRecognizedBody := by
  have h := argmin_within_tolerance [(2 : ℚ), 0]
    [⟨"A", 1, "F", "t"⟩, ⟨"B", 2, "M", "u"⟩] 1 rfl
    ⟨1, by norm_num, by norm_num [List.getD_cons_succ, List.getD_cons_zero]⟩
  exact ⟨h.1, h.2.1⟩

/-- C9, counterexample: the claim that a successful per-face result
carries the matched record's distance is false — the success body built
by `recognize_face` has no distance entry. -/
theorem recognize_result_distance_missing :
    ¬ (∀ (ds : List ℚ) (ms : List Meta) (t : ℚ) (r : Body),
        recognizeOne ds ms t = some r →
        (("recognized", JVal.b true) ∈ r →
          (∃ k, ("person_id", JVal.nat k) ∈ r)
          ∧ (∃ v, ("distance", v) ∈ r)
          ∧ (∃ c, ("confidence", JVal.q c) ∈ r))
        ∧ (("recognized", JVal.b true) ∉ r → ("recognized", JVal.b false) ∈ r)) := by
  intro h
  have hrun := recognizeOne_pos [0] [⟨"A", 1, "F", "t"⟩] 1 rfl 0
    (by simp) (by norm_num)
  obtain ⟨-, ⟨v, hv⟩, -⟩ :=
    (h [0] [⟨"A", 1, "F", "t"⟩] 1 _ hrun).1 (by simp [recognizedBody])
  simp only [recognizedBody, List.mem_cons, List.not_mem_nil, or_false] at hv
  rcases hv with h' | h' | h' | h' | h' | h' <;>
    exact absurd h' (key_ne (by decide))

/-- C9, amended: every per-face result is either the success body —
carrying recognized: true, the matched index as person_id, and the
confidence, but no distance entry — or the failure body carrying
recognized: false. -/
theorem recognize_result_shape (ds : List ℚ) (ms : List Meta) (t : ℚ)
    (r : Body) (h : recognizeOne ds ms t = some r) :
    (∃ md c k, r = recognizedBody md c k
      ∧ ("recognized", JVal.b true) ∈ r
      ∧ ("person_id", JVal.nat k) ∈ r
      ∧ ("confidence", JVal.q c) ∈ r
      ∧ ∀ v, ("distance", v) ∉ r)
    ∨ (r = notRecognizedBody
        ∧ ("recognized", JVal.b false) ∈ r
        ∧ ("recognized", JVal.b true) ∉ r) := by
  simp only [recognizeOne] at h
  by_cases h1 : true ∈ ds.map (fun d => decide (d ≤ t))
  · rw [if_pos h1] at h
    by_cases h2 :
        (ds.map (fun d => decide (d ≤ t))).getD (argminIdx ds) false = true
    · rw [if_pos h2] at h
      cases hms : ms.get? (argminIdx ds) with
      | none =>
        rw [hms] at h
        simp at h
      | some md =>
        rw [hms] at h
        simp only [Option.map_some', Option.some.injEq] at h
        refine Or.inl ⟨md, 1 - ds.getD (argminIdx ds) 0, argminIdx ds,
          h.symm, ?_, ?_, ?_, ?_⟩
        · rw [← h]
          simp [recognizedBody]
        · rw [← h]
          simp [recognizedBody]
        · rw [← h]
          simp [recognizedBody]
        · intro v hv
          rw [← h] at hv
          simp only [recognizedBody, List.mem_cons, List.not_mem_nil,
            or_false] at hv
          rcases hv with h' | h' | h' | h' | h' | h' <;>
            exact absurd h' (key_ne (by decide))
    · rw [if_neg h2] at h
      obtain rfl : notRecognizedBody = r := Option.some.inj h
      exact Or.inr ⟨rfl, by decide, by decide⟩
  · rw [if_neg h1] at h
    obtain rfl : notRecognizedBody = r := Option.some.inj h
    exact Or.inr ⟨rfl, by decide, by decide⟩

/-- Witness for the amended C9 at the no-match input `[2]` with
tolerance 1: the failure body carries recognized: false. -/
theorem recognize_result_shape_witness :
    ("recognized", JVal.b false) ∈ notRecognizedBody := by
  have hneg := recognizeOne_neg [2] [⟨"A", 1, "F", "t"⟩] 1 (by
    intro i hi
    have hi0 : i = 0 := by simpa using hi
    subst hi0
    norm_num)
  have h := recognize_result_shape [2] [⟨"A", 1, "F", "t"⟩] 1
    notRecognizedBody hneg
  rcases h with ⟨md, c, k, hr, -⟩ | ⟨-, h2, -⟩
  · exact absurd hr (by simp [recognizedBody, notRecognizedBody])
  · exact h2

/-! ### Claim theorems over the store and the handlers -/

/-- C3: register's append, delete, clear, and a load of a state these
operations persisted all preserve the invariant that the encodings and
metadata sequences have equal length. -/
theorem store_ops_preserve_inv (d : FaceData) (hd : storeInv d)
    (hasImage : Bool) (name age gender : Option String) (faces : List Enc)
    (now : String) (pid : Int) :
    storeInv (register_face hasImage name age gender faces now d).2
    ∧ storeInv (delete_person pid d).store
    ∧ storeInv clear_database
    ∧ load_data (save_data d) = d
    ∧ storeInv (load_data (save_data d))
    ∧ storeInv (load_data none) :=
  ⟨register_preserves_inv hasImage name age gender faces now d hd,
   delete_preserves_inv pid d hd, rfl, rfl, hd, rfl⟩

/-- Witness for C3 on a one-record store, a well-formed register request,
and delete index 0. -/
theorem store_ops_preserve_inv_witness :
    storeInv (register_face true (some "B") (some "2") (some "M") [[2]]
      "now" ⟨[[1]], [⟨"A", 1, "F", "t"⟩]⟩).2
    ∧ storeInv (delete_person 0 ⟨[[1]], [⟨"A", 1, "F", "t"⟩]⟩).store
    ∧ storeInv clear_database
    ∧ load_data (save_data ⟨[[1]], [⟨"A", 1, "F", "t"⟩]⟩) =
        ⟨[[1]], [⟨"A", 1, "F", "t"⟩]⟩
    ∧ storeInv (load_data (save_data ⟨[[1]], [⟨"A", 1, "F", "t"⟩]⟩))
    ∧ storeInv (load_data none) :=
  store_ops_preserve_inv ⟨[[1]], [⟨"A", 1, "F", "t"⟩]⟩ rfl true (some "B")
    (some "2") (some "M") [[2]] "now" 0

/-- C4: a register request with image and all metadata fields present,
whose image yields a face count other than one, gets status 400 — the
no-face error on zero faces, the ambiguous-face error on several — and
leaves the store unchanged. -/
theorem register_face_count_400 (name age gender : Option String)
    (faces : List Enc) (now : String) (d : FaceData)
    (hn : name ≠ none) (ha : age ≠ none) (hg : gender ≠ none)
    (hf : faces.length ≠ 1) :
    (register_face true name age gender faces now d).1.1 = 400
    ∧ (register_face true name age gender faces now d).1.2 =
        (if faces.length = 0
         then [("error", JVal.s "No face detected in image")]
         else [("error",
           JVal.s "Multiple faces detected. Please provide image with single face")])
    ∧ (register_face true name age gender faces now d).2 = d := by
  have hcond : ¬(name = none ∨ age = none ∨ gender = none) := by
    push_neg
    exact ⟨hn, ha, hg⟩
  by_cases h0 : faces.length = 0
  · simp [register_face, hcond, h0]
  · have h2 : faces.length > 1 := by omega
    simp [register_face, hcond, h0, h2, Nat.ne_of_gt h2]

/-- Witness for C4 on a two-face image. -/
theorem register_face_count_400_witness :
    (register_face true (some "B") (some "30") (some "M") [[1], [2]] "now"
      ⟨[], []⟩).1.1 = 400
    ∧ (register_face true (some "B") (some "30") (some "M") [[1], [2]] "now"
        ⟨[], []⟩).1.2 =
      [("error",
        JVal.s "Multiple faces detected. Please provide image with single face")]
    ∧ (register_face true (some "B") (some "30") (some "M") [[1], [2]] "now"
        ⟨[], []⟩).2 = ⟨[], []⟩ := by
  have h := register_face_count_400 (some "B") (some "30") (some "M")
    [[1], [2]] "now" ⟨[], []⟩ (by decide) (by decide) (by decide) (by decide)
  refine ⟨h.1, ?_, h.2.2⟩
  rw [h.2.1]
  rfl

/-- C5: deleting an in-range index returns the metadata formerly at that
index; the store shrinks by one, earlier records keep their positions,
and each later record moves down by one. -/
theorem delete_in_range_spec (s : FaceData) (i : Nat)
    (hinv : storeInv s) (hi : i < s.encodings.length) :
    (delete_person i s).status = 200
    ∧ (delete_person i s).deleted = s.metadata.get? i
    ∧ (delete_person i s).store.encodings.length = s.encodings.length - 1
    ∧ (delete_person i s).store.metadata.length = s.metadata.length - 1
    ∧ (∀ j, j < i →
        (delete_person i s).store.encodings.get? j = s.encodings.get? j
        ∧ (delete_person i s).store.metadata.get? j = s.metadata.get? j)
    ∧ (∀ j, i < j → j < s.encodings.length →
        (delete_person i s).store.encodings.get? (j - 1) = s.encodings.get? j
        ∧ (delete_person i s).store.metadata.get? (j - 1) =
            s.metadata.get? j) := by
  have hinv2 : s.encodings.length = s.metadata.length := hinv
  have him : i < s.metadata.length := by omega
  have hm := get?_eq_some_getD s.metadata i him
  have hres : delete_person (i : Int) s =
      ⟨200, some (s.metadata.getD i default),
       ⟨s.encodings.eraseIdx i, s.metadata.eraseIdx i⟩⟩ := by
    simp only [delete_person, Int.toNat_natCast]
    rw [if_neg (by omega), hm]
  refine ⟨by rw [hres], by rw [hres, hm], ?_, ?_, ?_, ?_⟩
  · rw [hres]
    simp only [List.length_eraseIdx, if_pos hi]
  · rw [hres]
    simp only [List.length_eraseIdx, if_pos him]
  · intro j hj
    rw [hres]
    exact ⟨get?_eraseIdx_of_lt s.encodings i j hj,
      get?_eraseIdx_of_lt s.metadata i j hj⟩
  · intro j hij hj
    rw [hres]
    exact ⟨get?_eraseIdx_of_gt s.encodings i j hij hj,
      get?_eraseIdx_of_gt s.metadata i j hij (by omega)⟩

/-- Witness for C5: deleting index 0 from a two-record store returns the
first metadata and shifts the second record to index 0. -/
theorem delete_in_range_spec_witness :
    (delete_person 0 ⟨[[1], [2]],
      [⟨"A", 1, "F", "t"⟩, ⟨"B", 2, "M", "u"⟩]⟩).status = 200
    ∧ (delete_person 0 ⟨[[1], [2]],
        [⟨"A", 1, "F", "t"⟩, ⟨"B", 2, "M", "u"⟩]⟩).deleted =
      some ⟨"A", 1, "F", "t"⟩
    ∧ (delete_person 0 ⟨[[1], [2]],
        [⟨"A", 1, "F", "t"⟩, ⟨"B", 2, "M", "u"⟩]⟩).store.metadata.get? 0 =
      some ⟨"B", 2, "M", "u"⟩ := by
  have h := delete_in_range_spec
    ⟨[[1], [2]], [⟨"A", 1, "F", "t"⟩, ⟨"B", 2, "M", "u"⟩]⟩ 0 rfl
    (by decide)
  simp only [Nat.cast_zero] at h
  refine ⟨h.1, by rw [h.2.1]; rfl, ?_⟩
  have h6 := (h.2.2.2.2.2 1 (by decide) (by decide)).2
  simpa using h6

/-- C6: deleting a negative or too-large index yields 404, returns no
record, and leaves the store unchanged. -/
theorem delete_out_of_range_404 (s : FaceData) (pid : Int)
    (h : pid < 0 ∨ (s.encodings.length : Int) ≤ pid) :
    (delete_person pid s).status = 404
    ∧ (delete_person pid s).deleted = none
    ∧ (delete_person pid s).store = s := by
  unfold delete_person
  rw [if_pos h]
  exact ⟨rfl, rfl, rfl⟩

/-- Witness for C6 at index -1 on a one-record store. -/
theorem delete_out_of_range_404_witness :
    (delete_person (-1) ⟨[[1]], [⟨"A", 1, "F", "t"⟩]⟩).status = 404
    ∧ (delete_person (-1) ⟨[[1]], [⟨"A", 1, "F", "t"⟩]⟩).deleted = none
    ∧ (delete_person (-1) ⟨[[1]], [⟨"A", 1, "F", "t"⟩]⟩).store =
        ⟨[[1]], [⟨"A", 1, "F", "t"⟩]⟩ :=
  delete_out_of_range_404 ⟨[[1]], [⟨"A", 1, "F", "t"⟩]⟩ (-1)
    (Or.inl (by norm_num))

/-- C7, counterexample: a register request whose age does not parse as an
integer does not get a 400 from the require step — with one detected face
the `int(age)` call raises and the generic handler returns 500. -/
theorem register_bad_age_not_400 :
    ¬ (∀ (name age gender : Option String) (faces : List Enc) (now : String)
        (d : FaceData), name ≠ none → age ≠ none → gender ≠ none →
        pyInt (age.getD "") = none →
        (register_face true name age gender faces now d).1.1 = 400
        ∧ (register_face true name age gender faces now d).2 = d) := by
  intro h
  have h400 := (h (some "Bob") (some "abc") (some "M") [[1]] "now" ⟨[], []⟩
    (by decide) (by decide) (by decide) (by decide)).1
  exact absurd h400 (by decide)

/-- C7, amended: with image and all fields present and an unparseable
age, the handler returns 500 when exactly one face is detected (the
`int(age)` ValueError reaches the generic except), and otherwise the 400
face-count error fires first; in every case the store is unchanged. -/
theorem register_bad_age_500 (name age gender : Option String)
    (faces : List Enc) (now : String) (d : FaceData)
    (hn : name ≠ none) (ha : age ≠ none) (hg : gender ≠ none)
    (hbad : pyInt (age.getD "") = none) :
    (register_face true name age gender faces now d).1.1 =
      (if faces.length = 1 then 500 else 400)
    ∧ (register_face true name age gender faces now d).2 = d := by
  have hcond : ¬(name = none ∨ age = none ∨ gender = none) := by
    push_neg
    exact ⟨hn, ha, hg⟩
  by_cases h1 : faces.length = 1
  · simp [register_face, hcond, h1, hbad]
  · by_cases h0 : faces.length = 0
    · simp [register_face, hcond, h0, h1]
    · have h2 : faces.length > 1 := by omega
      simp [register_face, hcond, h0, h2, h1, Nat.ne_of_gt h2]

/-- Witness for the amended C7 at age "abc" with a single face. -/
theorem register_bad_age_500_witness :
    (register_face true (some "Bob") (some "abc") (some "M") [[1]] "now"
      ⟨[], []⟩).1.1 = 500
    ∧ (register_face true (some "Bob") (some "abc") (some "M") [[1]] "now"
        ⟨[], []⟩).2 = ⟨[], []⟩ := by
  have h := register_bad_age_500 (some "Bob") (some "abc") (some "M") [[1]]
    "now" ⟨[], []⟩ (by decide) (by decide) (by decide) (by decide)
  refine ⟨?_, h.2⟩
  rw [h.1]
  rfl

/-- C8, counterexample: with more than one comma in the input, the code
does not decode the entire remainder after the first comma —
`split(',')[1]` keeps only the text before the second comma. -/
theorem strip_header_not_whole_remainder :
    ¬ (∀ s : List Char, ',' ∈ s →
        stripDataHeader s = (s.dropWhile (fun c => c != ',')).tail) := by
  intro h
  have hx := h ['a', ',', 'b', ',', 'c'] (by decide)
  exact absurd hx (by decide)

/-- C8, amended: when the input contains a comma, the decoder hands
`base64.b64decode` exactly the segment between the first comma and the
following comma or end of string. -/
theorem stripDataHeader_second_segment (s : List Char) (h : ',' ∈ s) :
    stripDataHeader s =
      ((s.dropWhile (fun c => c != ',')).tail).takeWhile (fun c => c != ',') := by
  induction s with
  | nil => simp at h
  | cons c cs ih =>
    by_cases hc : c = ','
    · subst hc
      have hsplit : pySplitComma (',' :: cs) = [] :: pySplitComma cs := by
        simp [pySplitComma]
      have hdrop : List.dropWhile (fun x => x != ',') (',' :: cs) =
          ',' :: cs := by
        simp [List.dropWhile_cons]
      simp only [stripDataHeader, if_pos h, hsplit, hdrop, List.tail_cons]
      rw [show ([] :: pySplitComma cs).getD 1 [] = (pySplitComma cs).getD 0 []
        from rfl]
      exact pySplitComma_head cs
    · have hcs : ',' ∈ cs := by
        rcases List.mem_cons.mp h with h1 | h1
        · exact absurd h1.symm hc
        · exact h1
      have ihx := ih hcs
      simp only [stripDataHeader, if_pos h, if_pos hcs] at ihx ⊢
      cases hsp : pySplitComma cs with
      | nil => exact absurd hsp (pySplitComma_ne_nil cs)
      | cons t ts =>
        rw [hsp] at ihx
        have hsplit : pySplitComma (c :: cs) = (c :: t) :: ts := by
          simp only [pySplitComma, if_neg hc, hsp]
        have hdrop : List.dropWhile (fun x => x != ',') (c :: cs) =
            List.dropWhile (fun x => x != ',') cs := by
          rw [List.dropWhile_cons, if_pos (by simpa using hc)]
        rw [hsplit, hdrop]
        rw [show ((c :: t) :: ts).getD 1 [] = ts.getD 0 [] from rfl]
        rw [show (t :: ts).getD 1 [] = ts.getD 0 [] from rfl] at ihx
        exact ihx

/-- Witness for the amended C8 on `"a,b,c"`: the decoded payload is
`"b"`. -/
theorem stripDataHeader_second_segment_witness :
    stripDataHeader ['a', ',', 'b', ',', 'c'] = ['b'] := by
  have h := stripDataHeader_second_segment ['a', ',', 'b', ',', 'c']
    (by decide)
  rw [h]
  rfl

end Khoma
